import Mathlib

/-!
# Verification of the `jsx-curly-spacing` lint rule

Shallow embedding of `src/rules/jsxCurlySpacingRule.ts`: a lint rule that
checks spacing immediately inside the braces of JSX expression containers
(`{expr}`) and of spread attributes (`{...props}`) found textually inside
JSX element / self-closing element nodes.

Texts are modelled as `List Char`.  The three regular expressions of the
source are modelled both as executable matchers (used by the embedded
checker) and as declarative languages (direct transliterations of the
regex syntax); equivalence lemmas connect the two.
-/

namespace JsxCurlySpacing

/-! ## Character classes

`isJsSpace` is the JavaScript regex class `\s` (ECMAScript WhiteSpace and
LineTerminator code points); `isWordChar` is `\w`. -/

def isJsSpace (c : Char) : Bool :=
  c == ' ' || c == '\t' || c == '\n' || c == '\x0b' || c == '\x0c' || c == '\r' ||
  c == '\u00A0' || c == '\u1680' || ('\u2000' <= c && c <= '\u200A') ||
  c == '\u2028' || c == '\u2029' || c == '\u202F' || c == '\u205F' ||
  c == '\u3000' || c == '\uFEFF'

def isWordChar (c : Char) : Bool :=
  ('a' ≤ c && c ≤ 'z') || ('A' ≤ c && c ≤ 'Z') || ('0' ≤ c && c ≤ '9') || c == '_'

/-- The class `[\w\.]` used inside the spread pattern. -/
def isWordDot (c : Char) : Bool :=
  isWordChar c || c == '.'

/-! ## Fixed strings of the rule -/

def OPTION_ALWAYS : String := "always"

def OPTION_NEVER : String := "never"

def ALWAYS_FAILURE_STRING : String := "Curly braces should always have spaces inside"

def NEVER_FAILURE_STRING : String := "Curly braces should never have spaces inside"

/-! ## The anchored brace regexes

`spacedBracesRegex = /^\{(?:\s|\n)[\s\S]*?(?:\s|(?:\n\s*))}$/`

A full-string match forces: leading `{`, one whitespace character right
after it, a trailing `}`, and a whitespace character right before that
`}` (the alternative `\n\s*` before `}` always ends in a whitespace
character, so it adds nothing to the language; see
`spacedBracesMatch_iff_lang`).  The pieces occupy distinct positions, so
the text has length at least four. -/

def spacedBracesMatch (s : List Char) : Bool :=
  match s with
  | '{' :: c :: rest =>
    isJsSpace c &&
      match rest.reverse with
      | '}' :: t :: _ => isJsSpace t
      | _ => false
  | _ => false

/-- A run of `\s` characters (the language of `\s*`). -/
def wsRun (l : List Char) : Prop := ∀ c ∈ l, isJsSpace c = true

/-- The language of `(\n\s*)?`: empty, or a newline followed by whitespace. -/
def OptNlWs (t : List Char) : Prop :=
  t = [] ∨ ∃ u, t = '\n' :: u ∧ wsRun u

/-- The language of `spacedBracesRegex`, transliterated clause by clause:
`{`, then one `\s|\n` character, then anything (`[\s\S]*?`), then
`\s` or `\n\s*`, then `}`. -/
def SpacedBracesLang (s : List Char) : Prop :=
  ∃ c m t, s = '{' :: c :: (m ++ t ++ ['}']) ∧ isJsSpace c = true ∧
    ((∃ d, t = [d] ∧ isJsSpace d = true) ∨ (∃ u, t = '\n' :: u ∧ wsRun u))

/-!
`spacelessBracesRegex = /^(\{((\n\s*)?(\S[\s\S]*?))[^\s](\n\s*)?})$/`

A full-string match forces: `{`, an optional newline-plus-whitespace run,
a non-whitespace character, anything, a second (distinct!) non-whitespace
character, an optional newline-plus-whitespace run, `}`.  Executable
form: strip the interior's leading whitespace (allowed only when it
starts with a newline) and its trailing whitespace (allowed only when the
whitespace character adjacent to the kept core is a newline); the kept
core must have at least two characters. -/

def SpacelessBracesLang (s : List Char) : Prop :=
  ∃ a c₁ m c₂ b, s = '{' :: (a ++ c₁ :: (m ++ c₂ :: (b ++ ['}']))) ∧
    OptNlWs a ∧ isJsSpace c₁ = false ∧ isJsSpace c₂ = false ∧ OptNlWs b

/-- Strip the interior's leading `(\n\s*)?`: keep all if the first
character is not whitespace, strip the maximal whitespace prefix if it
starts with a newline, fail otherwise. -/
def stripLeadNlWs (l : List Char) : Option (List Char) :=
  match l with
  | [] => some []
  | c :: _ =>
    if !isJsSpace c then some l
    else if c = '\n' then some (l.dropWhile isJsSpace)
    else none

/-- Strip the trailing `(\n\s*)?`, working on the reversed interior:
keep all if the first (i.e. last) character is not whitespace; strip the
maximal whitespace prefix if its deepest stripped character is a
newline (the regex requires the newline to sit right after the kept
core); fail otherwise. -/
def stripTrailNlWs (rev : List Char) : Option (List Char) :=
  match rev with
  | [] => some []
  | c :: _ =>
    if !isJsSpace c then some rev
    else if (rev.takeWhile isJsSpace).getLast? = some '\n' then
      some (rev.dropWhile isJsSpace)
    else none

/-- Check the interior (the text between the braces): strip the two
optional `\n\s*` ends, and require a kept core of at least two
characters — the regex's `\S` and `[^\s]` are distinct positions. -/
def spacelessInterior (I : List Char) : Bool :=
  match stripLeadNlWs I with
  | none => false
  | some core₁ =>
    match stripTrailNlWs core₁.reverse with
    | none => false
    | some core₂ => decide (2 ≤ core₂.length)

def spacelessBracesMatch (s : List Char) : Bool :=
  match s with
  | '{' :: rest =>
    match rest.reverse with
    | '}' :: revI => spacelessInterior revI.reverse
    | _ => false
  | _ => false

/-! ## The spread regex and global matching

`spreadRegEx = /\{\s*\.{3}[\w\.]*\s*}/g`

All adjacent pieces of the pattern draw from pairwise disjoint character
sets (`\s`, `.`, `[\w\.]`, `}`), so greedy matching never backtracks: at
a given start position the match, if any, is unique and is computed by
taking maximal runs. -/

/-- Try to match `\{\s*\.{3}[\w\.]*\s*}` at the head of `s`; return the
matched prefix. -/
def spreadMatchAt (s : List Char) : Option (List Char) :=
  match s with
  | '{' :: rest =>
    match rest.dropWhile isJsSpace with
    | '.' :: '.' :: '.' :: r₂ =>
      match (r₂.dropWhile isWordDot).dropWhile isJsSpace with
      | '}' :: _ =>
        some ('{' :: (rest.takeWhile isJsSpace ++ '.' :: '.' :: '.' ::
          (r₂.takeWhile isWordDot ++ (r₂.dropWhile isWordDot).takeWhile isJsSpace ++ ['}'])))
      | _ => none
    | _ => none
  | _ => none

/-- Fuelled global scan; `fuel` is a structural-recursion bound only,
irrelevant as long as it is at least the text length
(`scanSpreadAux_irrel`), since every match is non-empty. -/
def scanSpreadAux : Nat → List Char → List (List Char)
  | _, [] => []
  | 0, _ :: _ => []
  | fuel + 1, c :: rest =>
    match spreadMatchAt (c :: rest) with
    | some m => m :: scanSpreadAux fuel ((c :: rest).drop m.length)
    | none => scanSpreadAux fuel rest

/-- Global scan of `String.prototype.match` with a `g` regex: find the
leftmost match, record it, resume right after it; on failure advance one
character. -/
def scanSpread (s : List Char) : List (List Char) :=
  scanSpreadAux s.length s

/-- `text.match(spreadRegEx)`: `null` (here `none`) when there is no
match, otherwise the non-empty list of matched substrings. -/
def getJsxSpreads (text : List Char) : Option (List (List Char)) :=
  match scanSpread text with
  | [] => none
  | ms => some ms

/-- `hasSpreadInJsx(text) = !!text.match(spreadRegEx)`. -/
def hasSpreadInJsx (text : List Char) : Bool :=
  (getJsxSpreads text).isSome

/-- The degenerate texts skipped by `visitJsxExpression`:
`["{", "{...", "{ ..."].indexOf(text) !== -1`. -/
def isSkippableExpression (text : List Char) : Bool :=
  text == ['{'] || text == ['{', '.', '.', '.'] || text == ['{', ' ', '.', '.', '.']

/-! ## `String.prototype.indexOf` -/

/-- Does `pat` occur at the head of `tx`? -/
def prefixAt (pat tx : List Char) : Bool :=
  decide (tx.take pat.length = pat)

/-- Index of the first occurrence of `pat` in `tx`, if any. -/
def firstIndexOf (tx pat : List Char) : Option Nat :=
  if prefixAt pat tx then some 0
  else
    match tx with
    | [] => none
    | _ :: t => (firstIndexOf t pat).map (· + 1)

/-- JavaScript `tx.indexOf(pat)`: the first index, or `-1` when absent. -/
def jsIndexOf (tx pat : List Char) : Int :=
  match firstIndexOf tx pat with
  | some i => (i : Int)
  | none => -1

/-! ## The checker

`Options` is the rule's argument list; `hasOption` is the walker's option
lookup.  A `Finding` is one reported failure: `createFailure(start,
width, message)`.  The start is an `Int` because the spread handler
computes it as `node.getStart() + text.indexOf(match)` and `indexOf` is
`-1`-valued when absent. -/

abbrev Options := List String

def hasOption (opts : Options) (o : String) : Bool :=
  opts.contains o

structure Finding where
  start : Int
  width : Nat
  message : String
deriving DecidableEq, Repr

/-- `isValidExpression(text)` of the walker. -/
def isValidExpression (opts : Options) (text : List Char) : Bool :=
  let always := hasOption opts OPTION_ALWAYS
  let never := hasOption opts OPTION_NEVER
  if always then spacedBracesMatch text
  else if never then spacelessBracesMatch text
  else true

/-- The failures added by `visitJsxExpression` for one expression
container with start offset `st` and text `tx` (`node.getWidth()` is the
text length). -/
def visitJsxExpressionEmits (opts : Options) (st : Nat) (tx : List Char) : List Finding :=
  let always := hasOption opts OPTION_ALWAYS
  let never := hasOption opts OPTION_NEVER
  if !isSkippableExpression tx && !isValidExpression opts tx then
    if always then [⟨(st : Int), tx.length, ALWAYS_FAILURE_STRING⟩]
    else if never then [⟨(st : Int), tx.length, NEVER_FAILURE_STRING⟩]
    else []
  else []

/-- The failures added by `handleJsxSpreadNode`.  `none` models the
TypeError thrown by `getJsxSpreads(text).forEach` when the match list is
`null`. -/
def handleJsxSpreadNode (opts : Options) (st : Nat) (tx : List Char) :
    Option (List Finding) :=
  let always := hasOption opts OPTION_ALWAYS
  let never := hasOption opts OPTION_NEVER
  match getJsxSpreads tx with
  | none => none
  | some ms =>
    some (ms.flatMap fun m =>
      if !isValidExpression opts m then
        let start : Int := (st : Int) + jsIndexOf tx m
        let width : Nat := m.length
        if always then [⟨start, width, ALWAYS_FAILURE_STRING⟩]
        else if never then [⟨start, width, NEVER_FAILURE_STRING⟩]
        else []
      else [])

/-- The failures added by `visitJsxElement` at the node itself. -/
def visitJsxElementEmits (opts : Options) (st : Nat) (tx : List Char) :
    Option (List Finding) :=
  if hasSpreadInJsx tx then handleJsxSpreadNode opts st tx else some []

/-- The failures added by `visitJsxSelfClosingElement` at the node
itself. -/
def visitJsxSelfClosingElementEmits (opts : Options) (st : Nat) (tx : List Char) :
    Option (List Finding) :=
  if hasSpreadInJsx tx then handleJsxSpreadNode opts st tx else some []

/-! ## The tree walk

The host walker visits nodes in document order: a node's own handler
runs before `super.visit…` descends into its children. -/

inductive NodeKind where
  | jsxElement
  | jsxSelfClosingElement
  | jsxExpression
  | jsxAttribute
  | other
deriving DecidableEq, Repr

inductive JsxNode where
  | mk (kind : NodeKind) (start : Nat) (text : List Char) (children : List JsxNode)
deriving Repr

/-- The failures a single visit adds at the node itself (before
recursing). -/
def ownEmits (opts : Options) (k : NodeKind) (st : Nat) (tx : List Char) :
    Option (List Finding) :=
  match k with
  | .jsxElement => visitJsxElementEmits opts st tx
  | .jsxSelfClosingElement => visitJsxSelfClosingElementEmits opts st tx
  | .jsxExpression => some (visitJsxExpressionEmits opts st tx)
  | .jsxAttribute => some []
  | .other => some []

/-- Walk a forest in document order, accumulating failures. -/
def walkList (opts : Options) : List JsxNode → Option (List Finding)
  | [] => some []
  | JsxNode.mk k st tx cs :: rest => do
    let f₁ ← ownEmits opts k st tx
    let f₂ ← walkList opts cs
    let f₃ ← walkList opts rest
    pure (f₁ ++ f₂ ++ f₃)

/-- `Rule.apply`: construct a fresh walker and collect its failures. -/
def runChecker (tree : JsxNode) (opts : Options) : Option (List Finding) :=
  walkList opts [tree]

end JsxCurlySpacing

namespace JsxCurlySpacing

-- sanity checks against JavaScript behaviour of the two regexes
example : spacedBracesMatch ['{', ' ', 'f', 'o', 'o', ' ', '}'] = true := by decide
example : spacedBracesMatch ['{', 'f', 'o', 'o', '}'] = false := by decide
example : spacedBracesMatch ['{', ' ', '}'] = false := by decide
example : spacedBracesMatch ['{', ' ', ' ', '}'] = true := by decide
example : spacelessBracesMatch ['{', 'f', 'o', 'o', '}'] = true := by decide
example : spacelessBracesMatch ['{', ' ', 'f', 'o', 'o', ' ', '}'] = false := by decide
example : spacelessBracesMatch ['{', 'f', '}'] = false := by decide
example : spacelessBracesMatch ['{', 'f', 'o', '}'] = true := by decide
example : spacelessBracesMatch ['{', '\n', ' ', 'f', 'o', '\n', ' ', '}'] = true := by decide
example : spacelessBracesMatch ['{', 'a', '\n', 'b', '}'] = true := by decide
example : spacelessBracesMatch ['{', 'a', 'b', ' ', '}'] = false := by decide
example : spacelessBracesMatch ['{', 'a', '\n', '}'] = false := by decide

-- sanity checks for the spread scanner
example : scanSpread "{...a}".toList = ["{...a}".toList] := by decide
example : scanSpread "{ ...a.b } x {...c}".toList
    = ["{ ...a.b }".toList, "{...c}".toList] := by decide
example : scanSpread "{ ...a } { ...a }".toList
    = ["{ ...a }".toList, "{ ...a }".toList] := by decide
example : scanSpread "{. ..a}".toList = [] := by decide
example : scanSpread "{....}".toList = ["{....}".toList] := by decide
example : jsIndexOf "{ ...a } { ...a }".toList "{ ...a }".toList = 0 := by decide

/-! ## Supporting lemmas: the spread scanner -/

/-- A successful `spreadMatchAt` consumes a prefix of the input starting
with `{`. -/
theorem spreadMatchAt_some {s m : List Char} (h : spreadMatchAt s = some m) :
    (∃ t, m = '{' :: t) ∧ ∃ r, s = m ++ r := by
  unfold spreadMatchAt at h
  split at h
  next rest =>
    split at h
    next r₂ hdrop =>
      split at h
      next r₄ hdrop₂ =>
        injection h with h
        subst h
        refine ⟨⟨_, rfl⟩, r₄, ?_⟩
        simp only [List.cons_append]
        congr 1
        conv_lhs => rw [← List.takeWhile_append_dropWhile isJsSpace rest, hdrop]
        simp only [List.append_assoc, List.cons_append]
        congr 3
        conv_lhs => rw [← List.takeWhile_append_dropWhile isWordDot r₂]
        congr 1
        conv_lhs =>
          rw [← List.takeWhile_append_dropWhile isJsSpace (r₂.dropWhile isWordDot), hdrop₂]
        simp
      next => exact absurd h (by simp)
    next => exact absurd h (by simp)
  next => exact absurd h (by simp)

theorem spreadMatchAt_length_pos {s m : List Char} (h : spreadMatchAt s = some m) :
    0 < m.length := by
  obtain ⟨⟨t, rfl⟩, -⟩ := spreadMatchAt_some h
  simp

/-- The fuel of `scanSpreadAux` is irrelevant once it covers the text
length. -/
theorem scanSpreadAux_irrel :
    ∀ (f₁ f₂ : Nat) (s : List Char), s.length ≤ f₁ → s.length ≤ f₂ →
      scanSpreadAux f₁ s = scanSpreadAux f₂ s := by
  intro f₁
  induction f₁ with
  | zero =>
    intro f₂ s h₁ _
    have hs : s = [] := by cases s <;> simp_all
    subst hs
    cases f₂ <;> rfl
  | succ f ih =>
    intro f₂ s h₁ h₂
    cases s with
    | nil => cases f₂ <;> rfl
    | cons c rest =>
      obtain ⟨f₂', rfl⟩ : ∃ k, f₂ = k + 1 := by
        cases f₂ with
        | zero => simp at h₂
        | succ k => exact ⟨k, rfl⟩
      simp only [List.length_cons] at h₁ h₂
      simp only [scanSpreadAux]
      cases hm : spreadMatchAt (c :: rest) with
      | none =>
        show scanSpreadAux f rest = scanSpreadAux f₂' rest
        exact ih f₂' rest (by omega) (by omega)
      | some m =>
        have hpos := spreadMatchAt_length_pos hm
        have hlen : ((c :: rest).drop m.length).length ≤ rest.length := by
          simp only [List.length_drop, List.length_cons]
          omega
        show m :: scanSpreadAux f ((c :: rest).drop m.length)
            = m :: scanSpreadAux f₂' ((c :: rest).drop m.length)
        exact congrArg _ (ih f₂' ((c :: rest).drop m.length) (by omega) (by omega))

/-- The defining recurrence of the global scan. -/
theorem scanSpread_cons (c : Char) (rest : List Char) :
    scanSpread (c :: rest) =
      match spreadMatchAt (c :: rest) with
      | some m => m :: scanSpread ((c :: rest).drop m.length)
      | none => scanSpread rest := by
  unfold scanSpread
  simp only [List.length_cons, scanSpreadAux]
  cases hm : spreadMatchAt (c :: rest) with
  | none => rfl
  | some m =>
    have hpos := spreadMatchAt_length_pos hm
    show m :: scanSpreadAux rest.length ((c :: rest).drop m.length)
        = m :: scanSpread ((c :: rest).drop m.length)
    exact congrArg _ (scanSpreadAux_irrel _ _ _
      (by simp only [List.length_drop, List.length_cons]; omega)
      (le_refl _))

/-- Every string returned by the scanner occurs in the scanned text. -/
theorem scanSpreadAux_occurs :
    ∀ (fuel : Nat) (s m : List Char), m ∈ scanSpreadAux fuel s →
      ∃ pre post, s = pre ++ m ++ post := by
  intro fuel
  induction fuel with
  | zero =>
    intro s m h
    rw [show scanSpreadAux 0 s = [] from by cases s <;> rfl] at h
    exact absurd h (by simp)
  | succ f ih =>
    intro s m h
    cases s with
    | nil => exact absurd h (by simp [scanSpreadAux])
    | cons c rest =>
      simp only [scanSpreadAux] at h
      cases hm : spreadMatchAt (c :: rest) with
      | none =>
        rw [hm] at h
        obtain ⟨pre, post, hpp⟩ := ih rest m h
        exact ⟨c :: pre, post, by simp [hpp]⟩
      | some m₀ =>
        rw [hm] at h
        obtain ⟨-, r, hr⟩ := spreadMatchAt_some hm
        simp only [List.mem_cons] at h
        rcases h with rfl | h
        · exact ⟨[], r, by simpa using hr⟩
        · have hdr : (c :: rest).drop m₀.length = r := by
            rw [hr, List.drop_left]
          rw [hdr] at h
          obtain ⟨pre, post, hpp⟩ := ih _ m h
          refine ⟨m₀ ++ pre, post, ?_⟩
          rw [hr, hpp]
          simp

theorem scanSpread_occurs {s m : List Char} (h : m ∈ scanSpread s) :
    ∃ pre post, s = pre ++ m ++ post :=
  scanSpreadAux_occurs _ s m h

theorem getJsxSpreads_occurs {tx m : List Char} {ms : List (List Char)}
    (hms : getJsxSpreads tx = some ms) (h : m ∈ ms) :
    ∃ pre post, tx = pre ++ m ++ post := by
  unfold getJsxSpreads at hms
  split at hms
  · exact absurd hms (by simp)
  · injection hms with hms
    subst hms
    exact scanSpread_occurs h

/-! ## Supporting lemmas: `indexOf` -/

/-- What a successful `firstIndexOf` means: the pattern is reproduced by
slicing at the returned index. -/
theorem firstIndexOf_spec :
    ∀ (tx pat : List Char) (i : Nat), firstIndexOf tx pat = some i →
      (tx.drop i).take pat.length = pat ∧ i + pat.length ≤ tx.length := by
  intro tx
  induction tx with
  | nil =>
    intro pat i h
    unfold firstIndexOf at h
    split at h
    · injection h with h
      subst h
      have : ([] : List Char).take pat.length = pat := of_decide_eq_true (by assumption)
      constructor
      · simpa using this
      · have := congrArg List.length this
        simpa using this.symm.le
    · simp at h
  | cons c t ih =>
    intro pat i h
    unfold firstIndexOf at h
    split at h
    next hpre =>
      injection h with h
      subst h
      have hp : (c :: t).take pat.length = pat := of_decide_eq_true hpre
      refine ⟨by simpa using hp, ?_⟩
      have := congrArg List.length hp
      simp only [List.length_take] at this
      omega
    next =>
      have h' : (firstIndexOf t pat).map (· + 1) = some i := h
      cases hfi : firstIndexOf t pat with
      | none => rw [hfi] at h'; exact absurd h' (by simp)
      | some j =>
        rw [hfi] at h'
        injection h' with h'
        subst h'
        obtain ⟨h₁, h₂⟩ := ih pat j hfi
        exact ⟨by simpa using h₁, by simp only [List.length_cons]; omega⟩

/-- A pattern that occurs somewhere is found by `firstIndexOf`. -/
theorem firstIndexOf_of_occurs :
    ∀ (pre pat post : List Char), ∃ i, firstIndexOf (pre ++ pat ++ post) pat = some i := by
  intro pre
  induction pre with
  | nil =>
    intro pat post
    refine ⟨0, ?_⟩
    unfold firstIndexOf
    have : prefixAt pat ([] ++ pat ++ post) = true := by
      simp only [prefixAt, List.nil_append, decide_eq_true_eq]
      exact List.take_left pat post
    rw [this]
    simp
  | cons c pre' ih =>
    intro pat post
    obtain ⟨j, hj⟩ := ih pat post
    unfold firstIndexOf
    by_cases hpre : prefixAt pat (c :: pre' ++ pat ++ post) = true
    · exact ⟨0, by rw [hpre]; simp⟩
    · refine ⟨j + 1, ?_⟩
      rw [Bool.not_eq_true] at hpre
      rw [hpre]
      simp only [Bool.false_eq_true, if_false, List.cons_append]
      rw [hj]
      simp

/-! ## Supporting lemmas: the tree walk -/

/-- Two configurations giving the same answers to the two `hasOption`
queries drive the per-node handlers identically. -/
theorem ownEmits_congr {opts₁ opts₂ : Options}
    (hA : hasOption opts₁ OPTION_ALWAYS = hasOption opts₂ OPTION_ALWAYS)
    (hN : hasOption opts₁ OPTION_NEVER = hasOption opts₂ OPTION_NEVER)
    (k : NodeKind) (st : Nat) (tx : List Char) :
    ownEmits opts₁ k st tx = ownEmits opts₂ k st tx := by
  cases k <;>
    simp [ownEmits, visitJsxElementEmits, visitJsxSelfClosingElementEmits,
      visitJsxExpressionEmits, handleJsxSpreadNode, isValidExpression, hA, hN]

/-- When `"always"` is configured, the `"never"` flag is never read:
any two configurations with `"always"` ON behave identically. -/
theorem ownEmits_always_dominates {opts₁ opts₂ : Options}
    (h₁ : hasOption opts₁ OPTION_ALWAYS = true)
    (h₂ : hasOption opts₂ OPTION_ALWAYS = true)
    (k : NodeKind) (st : Nat) (tx : List Char) :
    ownEmits opts₁ k st tx = ownEmits opts₂ k st tx := by
  cases k <;>
    simp [ownEmits, visitJsxElementEmits, visitJsxSelfClosingElementEmits,
      visitJsxExpressionEmits, handleJsxSpreadNode, isValidExpression, h₁, h₂]

/-- With neither option configured every per-node handler emits
nothing (and never hits the `null` match list). -/
theorem ownEmits_unspecified {opts : Options}
    (hA : hasOption opts OPTION_ALWAYS = false)
    (hN : hasOption opts OPTION_NEVER = false)
    (k : NodeKind) (st : Nat) (tx : List Char) :
    ownEmits opts k st tx = some [] := by
  have hval : ∀ t : List Char, isValidExpression opts t = true := by
    intro t
    simp [isValidExpression, hA, hN]
  have hspread : ∀ st' tx', hasSpreadInJsx tx' = true →
      handleJsxSpreadNode opts st' tx' = some [] := by
    intro st' tx' hs
    unfold handleJsxSpreadNode
    cases hgs : getJsxSpreads tx' with
    | none => simp [hasSpreadInJsx, hgs] at hs
    | some ms => simp [hval, hA, hN]
  cases k with
  | jsxExpression => simp [ownEmits, visitJsxExpressionEmits, hval, hA, hN]
  | jsxElement =>
    simp only [ownEmits, visitJsxElementEmits]
    by_cases hs : hasSpreadInJsx tx = true
    · rw [if_pos hs]
      exact hspread st tx hs
    · rw [if_neg hs]
  | jsxSelfClosingElement =>
    simp only [ownEmits, visitJsxSelfClosingElementEmits]
    by_cases hs : hasSpreadInJsx tx = true
    · rw [if_pos hs]
      exact hspread st tx hs
    · rw [if_neg hs]
  | jsxAttribute => rfl
  | other => rfl

/-- Lift a per-node congruence to the whole walk. -/
theorem walkList_congr {opts₁ opts₂ : Options}
    (h : ∀ k st tx, ownEmits opts₁ k st tx = ownEmits opts₂ k st tx) :
    ∀ l, walkList opts₁ l = walkList opts₂ l := by
  intro l
  induction l using walkList.induct opts₁ with
  | case1 => simp only [walkList]
  | case2 k st tx cs rest ihc ihr =>
    simp only [walkList, h k st tx, ihc, ihr]

/-- A walk whose per-node handlers all emit nothing returns the empty
finding list. -/
theorem walkList_of_own_nil {opts : Options}
    (h : ∀ k st tx, ownEmits opts k st tx = some []) :
    ∀ l, walkList opts l = some [] := by
  intro l
  induction l using walkList.induct opts with
  | case1 => simp only [walkList]
  | case2 k st tx cs rest ihc ihr =>
    simp only [walkList, h k st tx, ihc, ihr]
    rfl

/-! ## Supporting lemmas: matchers versus regex languages -/

/-- Unfolding of `spacedBracesMatch` on a shaped cons cell. -/
theorem spacedBracesMatch_cons (c : Char) (rest : List Char) :
    spacedBracesMatch ('{' :: c :: rest) =
      (isJsSpace c &&
        match rest.reverse with
        | '}' :: t :: _ => isJsSpace t
        | _ => false) := rfl

/-- The executable matcher decides exactly the language of
`spacedBracesRegex`. -/
theorem spacedBracesMatch_iff_lang (s : List Char) :
    spacedBracesMatch s = true ↔ SpacedBracesLang s := by
  constructor
  · intro h
    unfold spacedBracesMatch at h
    split at h
    next c rest =>
      rw [Bool.and_eq_true] at h
      obtain ⟨hc, hm⟩ := h
      split at hm
      next t w hrev =>
        refine ⟨c, w.reverse, [t], ?_, hc, Or.inl ⟨t, rfl, hm⟩⟩
        have : rest = w.reverse ++ [t] ++ ['}'] := by
          have := congrArg List.reverse hrev
          simpa [List.append_assoc] using this
        rw [this]
      next => exact absurd hm (by simp)
    next => exact absurd h (by simp)
  · rintro ⟨c, m, t, rfl, hc, ht⟩
    rw [spacedBracesMatch_cons]
    rcases ht with ⟨d, rfl, hd⟩ | ⟨u, rfl, hu⟩
    · have hrev : (m ++ [d] ++ ['}']).reverse = '}' :: d :: m.reverse := by
        simp
      rw [hrev]
      simp [hc, hd]
    · cases hu' : u.reverse with
      | nil =>
        have : u = [] := by simpa using congrArg List.reverse hu'
        subst this
        have hrev : (m ++ '\n' :: [] ++ ['}']).reverse = '}' :: '\n' :: m.reverse := by
          simp
        rw [hrev]
        simp only [hc, Bool.true_and]
        decide
      | cons e w =>
        have he : e ∈ u := by
          have : e ∈ u.reverse := by rw [hu']; exact List.mem_cons_self e w
          simpa using this
        have hrev : (m ++ '\n' :: u ++ ['}']).reverse
            = '}' :: e :: (w ++ '\n' :: m.reverse) := by
          simp [hu']
        rw [hrev]
        simp [hc, hu e he]

/-- Dropping whitespace runs through an all-whitespace block and stops
at the first non-whitespace character. -/
theorem dropWhile_wsRun_cons {u : List Char} {c : Char} {ys : List Char}
    (hu : wsRun u) (hc : isJsSpace c = false) :
    (u ++ c :: ys).dropWhile isJsSpace = c :: ys := by
  induction u with
  | nil => simp [List.dropWhile_cons, hc]
  | cons a u' ih =>
    have ha : isJsSpace a = true := hu a (List.mem_cons_self a u')
    have hu' : wsRun u' := fun x hx => hu x (List.mem_cons_of_mem a hx)
    simp [List.dropWhile_cons, ha, ih hu']

/-- Taking whitespace collects exactly an all-whitespace block ended by
a non-whitespace character. -/
theorem takeWhile_wsRun_cons {u : List Char} {c : Char} {ys : List Char}
    (hu : wsRun u) (hc : isJsSpace c = false) :
    (u ++ c :: ys).takeWhile isJsSpace = u := by
  rw [List.takeWhile_append_of_pos (fun x hx => hu x hx)]
  simp [List.takeWhile_cons, hc]

/-- Unfolding of `stripLeadNlWs` on a cons cell. -/
theorem stripLeadNlWs_cons (c : Char) (t : List Char) :
    stripLeadNlWs (c :: t) =
      if !isJsSpace c then some (c :: t)
      else if c = '\n' then some ((c :: t).dropWhile isJsSpace)
      else none := rfl

/-- Unfolding of `stripTrailNlWs` on a cons cell. -/
theorem stripTrailNlWs_cons (c : Char) (t : List Char) :
    stripTrailNlWs (c :: t) =
      if !isJsSpace c then some (c :: t)
      else if ((c :: t).takeWhile isJsSpace).getLast? = some '\n' then
        some ((c :: t).dropWhile isJsSpace)
      else none := rfl

/-- What a successful leading strip means: it removes an optional
`\n\s*` block, and the kept part starts with a non-whitespace
character (when non-empty). -/
theorem stripLeadNlWs_some {I core₁ : List Char}
    (h : stripLeadNlWs I = some core₁) :
    ∃ a, I = a ++ core₁ ∧ OptNlWs a ∧
      ∀ c, core₁.head? = some c → isJsSpace c = false := by
  unfold stripLeadNlWs at h
  split at h
  next =>
    injection h with h
    subst h
    exact ⟨[], by simp, Or.inl rfl, by simp⟩
  next c rest =>
    split at h
    next hc =>
      injection h with h
      subst h
      refine ⟨[], by simp, Or.inl rfl, ?_⟩
      intro d hd
      simp only [List.head?_cons, Option.some_inj] at hd
      subst hd
      simpa using hc
    next hc =>
      split at h
      next hnl =>
        injection h with h
        subst h
        subst hnl
        have hws : isJsSpace '\n' = true := by decide
        refine ⟨('\n' :: rest).takeWhile isJsSpace,
          (List.takeWhile_append_dropWhile isJsSpace _).symm, ?_, ?_⟩
        · rw [List.takeWhile_cons, if_pos hws]
          exact Or.inr ⟨rest.takeWhile isJsSpace, rfl,
            fun x hx => List.mem_takeWhile_imp hx⟩
        · intro d hd
          have hne : ('\n' :: rest).dropWhile isJsSpace ≠ [] := by
            intro hnil
            rw [hnil] at hd
            exact absurd hd (by simp)
          have := List.head_dropWhile_not isJsSpace ('\n' :: rest) hne
          rw [List.head?_eq_head hne, Option.some_inj] at hd
          exact hd ▸ this
      next => exact absurd h (by simp)

/-- What a successful trailing strip (on the reversed core) means. -/
theorem stripTrailNlWs_some {R core₂ : List Char}
    (h : stripTrailNlWs R = some core₂) :
    ∃ w, R = w ++ core₂ ∧ OptNlWs w.reverse ∧
      ∀ c, core₂.head? = some c → isJsSpace c = false := by
  unfold stripTrailNlWs at h
  split at h
  next =>
    injection h with h
    subst h
    exact ⟨[], by simp, Or.inl rfl, by simp⟩
  next c rest =>
    split at h
    next hc =>
      injection h with h
      subst h
      refine ⟨[], by simp, Or.inl rfl, ?_⟩
      intro d hd
      simp only [List.head?_cons, Option.some_inj] at hd
      subst hd
      simpa using hc
    next hc =>
      split at h
      next hlast =>
        injection h with h
        subst h
        refine ⟨(c :: rest).takeWhile isJsSpace,
          (List.takeWhile_append_dropWhile isJsSpace _).symm, ?_, ?_⟩
        · obtain ⟨w', hw'⟩ := List.getLast?_eq_some_iff.mp hlast
          rw [hw']
          simp only [List.reverse_append, List.reverse_cons, List.reverse_nil,
            List.nil_append, List.singleton_append]
          refine Or.inr ⟨w'.reverse, rfl, ?_⟩
          intro x hx
          have hxw : x ∈ (c :: rest).takeWhile isJsSpace := by
            rw [hw']
            exact List.mem_append_left _ (by simpa using hx)
          exact List.mem_takeWhile_imp hxw
        · intro d hd
          have hne : (c :: rest).dropWhile isJsSpace ≠ [] := by
            intro hnil
            rw [hnil] at hd
            exact absurd hd (by simp)
          have := List.head_dropWhile_not isJsSpace (c :: rest) hne
          rw [List.head?_eq_head hne, Option.some_inj] at hd
          exact hd ▸ this
      next => exact absurd h (by simp)

/-- Leading strip on a decomposed interior. -/
theorem stripLeadNlWs_of_shape {a : List Char} {c₁ : Char} {ys : List Char}
    (ha : OptNlWs a) (hc₁ : isJsSpace c₁ = false) :
    stripLeadNlWs (a ++ c₁ :: ys) = some (c₁ :: ys) := by
  rcases ha with rfl | ⟨u, rfl, hu⟩
  · rw [List.nil_append, stripLeadNlWs_cons, if_pos (by simp [hc₁])]
  · have hws : isJsSpace '\n' = true := by decide
    rw [List.cons_append, stripLeadNlWs_cons]
    rw [if_neg (by simp [hws]), if_pos rfl]
    rw [List.dropWhile_cons, if_pos hws, dropWhile_wsRun_cons hu hc₁]

/-- Trailing strip through a non-empty whitespace block whose deepest
character is a newline. -/
theorem stripTrailNlWs_wsblock {w : List Char} {c₂ : Char} {ys : List Char}
    (hw : wsRun w) (hlast : w.getLast? = some '\n') (hc₂ : isJsSpace c₂ = false) :
    stripTrailNlWs (w ++ c₂ :: ys) = some (c₂ :: ys) := by
  obtain ⟨e, w', rfl⟩ : ∃ e w', w = e :: w' := by
    cases w with
    | nil => simp at hlast
    | cons e w' => exact ⟨e, w', rfl⟩
  have he : isJsSpace e = true := hw e (List.mem_cons_self _ _)
  have htake : ((e :: w') ++ c₂ :: ys).takeWhile isJsSpace = e :: w' :=
    takeWhile_wsRun_cons hw hc₂
  have hdrop : ((e :: w') ++ c₂ :: ys).dropWhile isJsSpace = c₂ :: ys :=
    dropWhile_wsRun_cons hw hc₂
  rw [List.cons_append, stripTrailNlWs_cons]
  rw [if_neg (by simp [he])]
  rw [show ((e :: (w' ++ c₂ :: ys)).takeWhile isJsSpace).getLast? = some '\n' from by
    rw [← List.cons_append, htake]; exact hlast]
  rw [if_pos rfl]
  rw [show (e :: (w' ++ c₂ :: ys)).dropWhile isJsSpace = c₂ :: ys from by
    rw [← List.cons_append]; exact hdrop]

/-- Trailing strip on a decomposed reversed core. -/
theorem stripTrailNlWs_of_shape {b : List Char} {c₂ : Char} {ys : List Char}
    (hb : OptNlWs b) (hc₂ : isJsSpace c₂ = false) :
    stripTrailNlWs (b.reverse ++ c₂ :: ys) = some (c₂ :: ys) := by
  rcases hb with rfl | ⟨u, rfl, hu⟩
  · rw [List.reverse_nil, List.nil_append, stripTrailNlWs_cons, if_pos (by simp [hc₂])]
  · have hws : isJsSpace '\n' = true := by decide
    have hrev : ('\n' :: u).reverse = u.reverse ++ ['\n'] := by simp
    rw [hrev]
    refine stripTrailNlWs_wsblock ?_ (List.getLast?_concat _) hc₂
    intro x hx
    simp only [List.mem_append, List.mem_reverse, List.mem_singleton] at hx
    rcases hx with hx | rfl
    · exact hu x hx
    · exact hws

/-- Unfolding of `spacelessInterior` when both strips succeed. -/
theorem spacelessInterior_some_some {I core₁ core₂ : List Char}
    (h₁ : stripLeadNlWs I = some core₁)
    (h₂ : stripTrailNlWs core₁.reverse = some core₂) :
    spacelessInterior I = decide (2 ≤ core₂.length) := by
  unfold spacelessInterior
  rw [h₁]
  show (match stripTrailNlWs core₁.reverse with
        | none => false
        | some c => decide (2 ≤ c.length)) = decide (2 ≤ core₂.length)
  rw [h₂]

/-- Unfolding of `spacelessBracesMatch` on a brace-led text. -/
theorem spacelessBracesMatch_cons (rest : List Char) :
    spacelessBracesMatch ('{' :: rest) =
      match rest.reverse with
      | '}' :: revI => spacelessInterior revI.reverse
      | _ => false := rfl

/-- The interior check decides exactly the interior language of
`spacelessBracesRegex`: optional `\n\s*`, a non-whitespace character,
anything, a second non-whitespace character, optional `\n\s*`. -/
theorem spacelessInterior_iff (I : List Char) :
    spacelessInterior I = true ↔
      ∃ a c₁ m c₂ b, I = a ++ c₁ :: (m ++ c₂ :: b) ∧ OptNlWs a ∧
        isJsSpace c₁ = false ∧ isJsSpace c₂ = false ∧ OptNlWs b := by
  constructor
  · intro h
    unfold spacelessInterior at h
    split at h
    next => exact absurd h (by simp)
    next core₁ hlead =>
      split at h
      next => exact absurd h (by simp)
      next core₂ htrail =>
        have hlen : 2 ≤ core₂.length := of_decide_eq_true h
        obtain ⟨a, hIa, ha, hhead₁⟩ := stripLeadNlWs_some hlead
        obtain ⟨w, hRw, hb, hhead₂⟩ := stripTrailNlWs_some htrail
        obtain ⟨c₂, k, rfl⟩ : ∃ c₂ k, core₂ = c₂ :: k := by
          cases core₂ with
          | nil => simp at hlen
          | cons c₂ k => exact ⟨c₂, k, rfl⟩
        have hc₂ : isJsSpace c₂ = false := hhead₂ c₂ (by simp)
        have hk : k ≠ [] := by
          intro hk
          subst hk
          simp at hlen
        obtain ⟨c₁, m₀, hkrev⟩ : ∃ c₁ m₀, k.reverse = c₁ :: m₀ := by
          cases hkr : k.reverse with
          | nil => exact absurd (by simpa using congrArg List.reverse hkr) hk
          | cons c₁ m₀ => exact ⟨c₁, m₀, rfl⟩
        have hcore₁ : core₁ = (c₂ :: k).reverse ++ w.reverse := by
          have hrr := congrArg List.reverse hRw
          rw [List.reverse_reverse, List.reverse_append] at hrr
          exact hrr
        have hc₂rev : (c₂ :: k).reverse = c₁ :: (m₀ ++ [c₂]) := by
          rw [List.reverse_cons, hkrev]
          simp
        have hc₁ : isJsSpace c₁ = false := by
          apply hhead₁ c₁
          rw [hcore₁, hc₂rev]
          simp
        refine ⟨a, c₁, m₀, c₂, w.reverse, ?_, ha, hc₁, hc₂, hb⟩
        rw [hIa, hcore₁, hc₂rev]
        simp
  · rintro ⟨a, c₁, m, c₂, b, rfl, ha, hc₁, hc₂, hb⟩
    have hrev : (c₁ :: (m ++ c₂ :: b)).reverse
        = b.reverse ++ c₂ :: (m.reverse ++ [c₁]) := by
      simp
    rw [spacelessInterior_some_some (stripLeadNlWs_of_shape ha hc₁)
      (by rw [hrev]; exact stripTrailNlWs_of_shape hb hc₂)]
    simp

/-- The executable matcher decides exactly the language of
`spacelessBracesRegex`. -/
theorem spacelessBracesMatch_iff_lang (s : List Char) :
    spacelessBracesMatch s = true ↔ SpacelessBracesLang s := by
  constructor
  · intro h
    unfold spacelessBracesMatch at h
    split at h
    next rest =>
      split at h
      next revI hrev =>
        obtain ⟨a, c₁, m, c₂, b, hI, ha, hc₁, hc₂, hb⟩ :=
          (spacelessInterior_iff _).mp h
        have hrest : rest = revI.reverse ++ ['}'] :=
          List.reverse_eq_cons_iff.mp hrev
        refine ⟨a, c₁, m, c₂, b, ?_, ha, hc₁, hc₂, hb⟩
        rw [hrest, hI]
        simp
      next => exact absurd h (by simp)
    next => exact absurd h (by simp)
  · rintro ⟨a, c₁, m, c₂, b, rfl, ha, hc₁, hc₂, hb⟩
    have hI : a ++ c₁ :: (m ++ c₂ :: (b ++ ['}']))
        = (a ++ c₁ :: (m ++ c₂ :: b)) ++ ['}'] := by
      simp
    rw [hI, spacelessBracesMatch_cons]
    rw [show ((a ++ c₁ :: (m ++ c₂ :: b)) ++ ['}']).reverse
        = '}' :: (a ++ c₁ :: (m ++ c₂ :: b)).reverse from by simp]
    show spacelessInterior (a ++ c₁ :: (m ++ c₂ :: b)).reverse.reverse = true
    rw [List.reverse_reverse]
    exact (spacelessInterior_iff _).mpr ⟨a, c₁, m, c₂, b, rfl, ha, hc₁, hc₂, hb⟩

/-! ## Claim theorems -/

/-- C3: under policy `Never`, an expression-container node with text
`{foo}` produces no finding, and one with text `{ foo }` produces
exactly one finding with message "Curly braces should never have spaces
inside" (spanning the node). -/
theorem C3_never_concrete :
    ∀ st : Nat,
      visitJsxExpressionEmits [OPTION_NEVER] st ['{', 'f', 'o', 'o', '}'] = [] ∧
      visitJsxExpressionEmits [OPTION_NEVER] st ['{', ' ', 'f', 'o', 'o', ' ', '}']
        = [⟨(st : Int), 7, NEVER_FAILURE_STRING⟩] := by
  intro st
  constructor
  · have hcond : (!isSkippableExpression ['{', 'f', 'o', 'o', '}']
        && !isValidExpression [OPTION_NEVER] ['{', 'f', 'o', 'o', '}']) = false := by
      decide
    simp [visitJsxExpressionEmits, hcond]
  · have hcond : (!isSkippableExpression ['{', ' ', 'f', 'o', 'o', ' ', '}']
        && !isValidExpression [OPTION_NEVER] ['{', ' ', 'f', 'o', 'o', ' ', '}']) = true := by
      decide
    simp [visitJsxExpressionEmits, hcond, hasOption, OPTION_NEVER, OPTION_ALWAYS]
    decide

/-- C5: the degenerate texts `{`, `{...`, `{ ...` as the full text of an
expression container never produce a finding, whatever the configured
options. -/
theorem C5_degenerate_skipped :
    ∀ (opts : Options) (st : Nat),
      visitJsxExpressionEmits opts st ['{'] = [] ∧
      visitJsxExpressionEmits opts st ['{', '.', '.', '.'] = [] ∧
      visitJsxExpressionEmits opts st ['{', ' ', '.', '.', '.'] = [] := by
  intro opts st
  have h₁ : isSkippableExpression ['{'] = true := by decide
  have h₂ : isSkippableExpression ['{', '.', '.', '.'] = true := by decide
  have h₃ : isSkippableExpression ['{', ' ', '.', '.', '.'] = true := by decide
  refine ⟨?_, ?_, ?_⟩ <;> simp [visitJsxExpressionEmits, h₁, h₂, h₃]

/-- C6 evaluation: an element whose text contains two identical invalid
spread occurrences (at offsets 0 and 9) reports both findings at offset
0 — `text.indexOf(match)` returns the first occurrence for both — so
the second finding does not carry its own match offset 9. -/
theorem C6_duplicate_spread_offsets :
    visitJsxElementEmits [OPTION_NEVER] 0 "{ ...a } { ...a }".toList
      = some [⟨(0 : Int), 8, NEVER_FAILURE_STRING⟩,
              ⟨(0 : Int), 8, NEVER_FAILURE_STRING⟩] ∧
    ("{ ...a } { ...a }".toList.drop 9).take 8 = "{ ...a }".toList := by
  constructor
  · decide
  · decide

/-- C8: the checker is a pure function of the tree and the options, so
two runs on the same inputs return identical ordered finding lists. -/
theorem C8_idempotent :
    ∀ (tree : JsxNode) (opts : Options),
      runChecker tree opts = runChecker tree opts :=
  fun _ _ => rfl

/-- C4 counterexample: `{f}` has a single-character interior whose one
character is non-whitespace, yet under policy `Never` the checker
classifies it invalid and emits a finding — the regex needs two distinct
non-whitespace interior positions. -/
theorem C4_counterexample :
    isJsSpace 'f' = false ∧
    isValidExpression [OPTION_NEVER] ['{', 'f', '}'] = false ∧
    visitJsxExpressionEmits [OPTION_NEVER] 0 ['{', 'f', '}']
      = [⟨(0 : Int), 3, NEVER_FAILURE_STRING⟩] := by
  refine ⟨by decide, by decide, by decide⟩

/-- A text that begins with `{` and ends with `}` (with at least two
characters) is never one of the three degenerate skip texts, since none
of those ends in `}`. -/
theorem isSkippableExpression_eq_false {tx : List Char}
    (h : tx.getLast? = some '}') : isSkippableExpression tx = false := by
  have n1 : tx ≠ ['{'] := by rintro rfl; exact absurd h (by decide)
  have n2 : tx ≠ ['{', '.', '.', '.'] := by rintro rfl; exact absurd h (by decide)
  have n3 : tx ≠ ['{', '.', '.', '.'] → tx ≠ ['{', ' ', '.', '.', '.'] := by
    intro _
    rintro rfl
    exact absurd h (by decide)
  simp [isSkippableExpression, n1, n2, n3 n2]

/-- C1: for an expression-container occurrence (a text that starts with
`{` and ends with the matching `}`), a finding is emitted iff the text
fails the configured validity check and at least one of the two options
is configured; and with neither option configured the whole checker
emits nothing on any tree. -/
theorem C1_emission_iff :
    (∀ (opts : Options) (st : Nat) (tx : List Char),
        tx.head? = some '{' → tx.getLast? = some '}' → 2 ≤ tx.length →
        (visitJsxExpressionEmits opts st tx ≠ [] ↔
          (isValidExpression opts tx = false ∧
            (hasOption opts OPTION_ALWAYS || hasOption opts OPTION_NEVER) = true))) ∧
    (∀ (opts : Options) (tree : JsxNode),
        hasOption opts OPTION_ALWAYS = false → hasOption opts OPTION_NEVER = false →
        runChecker tree opts = some []) := by
  constructor
  · intro opts st tx h1 h2 h3
    have hskip := isSkippableExpression_eq_false h2
    cases hv : isValidExpression opts tx <;>
      cases hA : hasOption opts OPTION_ALWAYS <;>
        cases hN : hasOption opts OPTION_NEVER <;>
          simp [visitJsxExpressionEmits, hskip, hv, hA, hN]
  · intro opts tree hA hN
    unfold runChecker
    exact walkList_of_own_nil (fun k st tx => ownEmits_unspecified hA hN k st tx) [tree]

/-- C1 witness: with `"always"` configured, `{x}` is invalid and a
finding is emitted; with no options configured, a one-node tree yields
no findings. -/
theorem C1_emission_iff_witness :
    visitJsxExpressionEmits [OPTION_ALWAYS] 0 ['{', 'x', '}'] ≠ [] ∧
    runChecker (JsxNode.mk NodeKind.jsxExpression 0 ['{', 'x', '}'] []) [] = some [] := by
  constructor
  · exact (C1_emission_iff.1 [OPTION_ALWAYS] 0 ['{', 'x', '}'] (by decide) (by decide)
      (by decide)).mpr ⟨by decide, by decide⟩
  · exact C1_emission_iff.2 [] (JsxNode.mk NodeKind.jsxExpression 0 ['{', 'x', '}'] [])
      (by decide) (by decide)

/-- C2: under policy `Always`, any text `{` + whitespace + anything +
whitespace + `}` is valid and produces no finding (in particular
`{ foo }`), while `{foo}` produces exactly one finding with the
"always" message spanning the node's start and width. -/
theorem C2_always_shape :
    (∀ (st : Nat) (c : Char) (m : List Char) (t : Char),
        isJsSpace c = true → isJsSpace t = true →
        visitJsxExpressionEmits [OPTION_ALWAYS] st ('{' :: c :: (m ++ [t, '}'])) = []) ∧
    (∀ st : Nat,
        visitJsxExpressionEmits [OPTION_ALWAYS] st ['{', ' ', 'f', 'o', 'o', ' ', '}'] = []) ∧
    (∀ st : Nat,
        visitJsxExpressionEmits [OPTION_ALWAYS] st ['{', 'f', 'o', 'o', '}']
          = [⟨(st : Int), 5, ALWAYS_FAILURE_STRING⟩]) := by
  refine ⟨?_, ?_, ?_⟩
  · intro st c m t hc ht
    have hvalid : spacedBracesMatch ('{' :: c :: (m ++ [t, '}'])) = true := by
      apply (spacedBracesMatch_iff_lang _).mpr
      exact ⟨c, m, [t], by simp, hc, Or.inl ⟨t, rfl, ht⟩⟩
    have hv : isValidExpression [OPTION_ALWAYS] ('{' :: c :: (m ++ [t, '}'])) = true := by
      simp [isValidExpression, hasOption, OPTION_ALWAYS, hvalid]
    simp [visitJsxExpressionEmits, hv]
  · intro st
    have hcond : (!isSkippableExpression ['{', ' ', 'f', 'o', 'o', ' ', '}']
        && !isValidExpression [OPTION_ALWAYS] ['{', ' ', 'f', 'o', 'o', ' ', '}']) = false := by
      decide
    simp [visitJsxExpressionEmits, hcond]
  · intro st
    have hcond : (!isSkippableExpression ['{', 'f', 'o', 'o', '}']
        && !isValidExpression [OPTION_ALWAYS] ['{', 'f', 'o', 'o', '}']) = true := by
      decide
    simp [visitJsxExpressionEmits, hcond, hasOption, OPTION_ALWAYS]
    decide

/-- C2 witness: the shape part applied to `{ foo }` itself. -/
theorem C2_always_shape_witness :
    visitJsxExpressionEmits [OPTION_ALWAYS] 0
      ('{' :: ' ' :: (['f', 'o', 'o'] ++ [' ', '}'])) = [] :=
  C2_always_shape.1 0 ' ' ['f', 'o', 'o'] ' ' (by decide) (by decide)

/-- C4 (amended): under policy `Never`, a brace-delimited text whose
interior, after the optional newline strips, keeps a core of at least
two characters with non-whitespace first and last characters, is valid
and produces no finding. -/
theorem C4_never_shape_valid :
    ∀ (st : Nat) (a : List Char) (c₁ : Char) (m : List Char) (c₂ : Char) (b : List Char),
      OptNlWs a → isJsSpace c₁ = false → isJsSpace c₂ = false → OptNlWs b →
      isValidExpression [OPTION_NEVER]
          ('{' :: (a ++ c₁ :: (m ++ c₂ :: (b ++ ['}'])))) = true ∧
      visitJsxExpressionEmits [OPTION_NEVER] st
          ('{' :: (a ++ c₁ :: (m ++ c₂ :: (b ++ ['}'])))) = [] := by
  intro st a c₁ m c₂ b ha hc₁ hc₂ hb
  have hvalid : spacelessBracesMatch ('{' :: (a ++ c₁ :: (m ++ c₂ :: (b ++ ['}'])))) = true :=
    (spacelessBracesMatch_iff_lang _).mpr ⟨a, c₁, m, c₂, b, rfl, ha, hc₁, hc₂, hb⟩
  have hv : isValidExpression [OPTION_NEVER]
      ('{' :: (a ++ c₁ :: (m ++ c₂ :: (b ++ ['}'])))) = true := by
    simp [isValidExpression, hasOption, OPTION_ALWAYS, OPTION_NEVER, hvalid]
  exact ⟨hv, by simp [visitJsxExpressionEmits, hv]⟩

/-- C4 witness: `{fo}` — two-character core hugging both braces — is
valid under `Never` and produces no finding. -/
theorem C4_never_shape_valid_witness :
    isValidExpression [OPTION_NEVER] ('{' :: ([] ++ 'f' :: ([] ++ 'o' :: ([] ++ ['}'])))) = true ∧
    visitJsxExpressionEmits [OPTION_NEVER] 0
      ('{' :: ([] ++ 'f' :: ([] ++ 'o' :: ([] ++ ['}'])))) = [] :=
  C4_never_shape_valid 0 [] 'f' [] 'o' []
    (Or.inl rfl) (by decide) (by decide) (Or.inl rfl)

/-- A non-`null` match-list result pins down the scan. -/
theorem getJsxSpreads_eq_some {tx : List Char} {ms : List (List Char)}
    (h : getJsxSpreads tx = some ms) : scanSpread tx = ms := by
  unfold getJsxSpreads at h
  cases hscan : scanSpread tx with
  | nil =>
    rw [hscan] at h
    exact absurd h (by simp)
  | cons a l =>
    rw [hscan] at h
    exact Option.some.inj h

/-- Transferring a slice through a node whose text is a slice of the
source. -/
theorem slice_within {src tx : List Char} {st i L : Nat}
    (h : (src.drop st).take tx.length = tx) (hle : i + L ≤ tx.length) :
    (src.drop (st + i)).take L = (tx.drop i).take L := by
  conv_rhs => rw [← h]
  rw [List.drop_take, List.take_take, List.drop_drop]
  congr 1
  omega

/-- C7: every finding emitted by the spread handler points back into the
source: its width is the matched substring's length and re-slicing the
source at `(offset, offset + width)` reproduces that substring exactly.
The hypothesis says the node's text is the slice of the source at the
node's start. -/
theorem C7_spread_roundtrip :
    ∀ (src : List Char) (opts : Options) (st : Nat) (tx : List Char) (fs : List Finding),
      (src.drop st).take tx.length = tx →
      handleJsxSpreadNode opts st tx = some fs →
      ∀ f ∈ fs, ∃ (i : Nat) (m : List Char) (ms : List (List Char)),
        getJsxSpreads tx = some ms ∧ m ∈ ms ∧
        isValidExpression opts m = false ∧
        f.start = (st : Int) + (i : Int) ∧ f.width = m.length ∧
        (src.drop (st + i)).take f.width = m := by
  intro src opts st tx fs hwf hfs f hf
  simp only [handleJsxSpreadNode] at hfs
  split at hfs
  next => exact absurd hfs (by simp)
  next ms hms =>
    injection hfs with hfs
    subst hfs
    obtain ⟨m, hmms, hfm⟩ := List.mem_flatMap.mp hf
    by_cases hval : isValidExpression opts m = true
    · rw [hval] at hfm
      exact absurd hfm (by simp)
    · have hvalf : isValidExpression opts m = false := by
        simpa using hval
      have hkey : f.start = (st : Int) + jsIndexOf tx m ∧ f.width = m.length := by
        rw [hvalf] at hfm
        cases hA : hasOption opts OPTION_ALWAYS <;>
          cases hN : hasOption opts OPTION_NEVER <;>
            simp [hA, hN] at hfm <;>
              (subst hfm; exact ⟨rfl, rfl⟩)
      have hmem : m ∈ scanSpread tx := by
        rw [getJsxSpreads_eq_some hms]
        exact hmms
      obtain ⟨pre, post, hdecomp⟩ := scanSpread_occurs hmem
      obtain ⟨i, hfi⟩ := firstIndexOf_of_occurs pre m post
      rw [← hdecomp] at hfi
      obtain ⟨hslice, hlen⟩ := firstIndexOf_spec tx m i hfi
      have hjs : jsIndexOf tx m = (i : Int) := by
        unfold jsIndexOf
        rw [hfi]
      refine ⟨i, m, ms, hms, hmms, hvalf, ?_, hkey.2, ?_⟩
      · rw [hkey.1, hjs]
      · rw [hkey.2, slice_within hwf hlen, hslice]

/-- C7 witness: the single invalid spread `{ ...a }` in a node whose
text is the whole source at offset 0. -/
theorem C7_spread_roundtrip_witness :
    ∃ (i : Nat) (m : List Char) (ms : List (List Char)),
      getJsxSpreads "{ ...a }".toList = some ms ∧ m ∈ ms ∧
      isValidExpression [OPTION_NEVER] m = false ∧
      (Finding.mk 0 8 NEVER_FAILURE_STRING).start = ((0 : Nat) : Int) + (i : Int) ∧
      (Finding.mk 0 8 NEVER_FAILURE_STRING).width = m.length ∧
      ("{ ...a }".toList.drop (0 + i)).take (Finding.mk 0 8 NEVER_FAILURE_STRING).width = m :=
  C7_spread_roundtrip "{ ...a }".toList [OPTION_NEVER] 0 "{ ...a }".toList
    [⟨0, 8, NEVER_FAILURE_STRING⟩] (by decide) (by decide)
    ⟨0, 8, NEVER_FAILURE_STRING⟩ (by simp)

/-- C9: `handleJsxSpreadNode` runs only under a positive
`hasSpreadInJsx` guard, under which `getJsxSpreads` is non-`null`, so
the element visits never fail. -/
theorem C9_spread_nonnull :
    (∀ tx : List Char, hasSpreadInJsx tx = true → ∃ ms, getJsxSpreads tx = some ms) ∧
    (∀ (opts : Options) (st : Nat) (tx : List Char),
      (visitJsxElementEmits opts st tx).isSome = true ∧
      (visitJsxSelfClosingElementEmits opts st tx).isSome = true) := by
  have hh : ∀ (opts : Options) (st : Nat) (tx : List Char), hasSpreadInJsx tx = true →
      (handleJsxSpreadNode opts st tx).isSome = true := by
    intro opts st tx hs
    unfold hasSpreadInJsx at hs
    obtain ⟨ms, hms⟩ := Option.isSome_iff_exists.mp hs
    simp only [handleJsxSpreadNode, hms]
    rfl
  constructor
  · intro tx hs
    exact Option.isSome_iff_exists.mp hs
  · intro opts st tx
    constructor
    · unfold visitJsxElementEmits
      by_cases hs : hasSpreadInJsx tx = true
      · rw [if_pos hs]
        exact hh opts st tx hs
      · rw [if_neg hs]
        rfl
    · unfold visitJsxSelfClosingElementEmits
      by_cases hs : hasSpreadInJsx tx = true
      · rw [if_pos hs]
        exact hh opts st tx hs
      · rw [if_neg hs]
        rfl

/-- C9 witness: a concrete text containing a spread. -/
theorem C9_spread_nonnull_witness :
    ∃ ms, getJsxSpreads ['{', '.', '.', '.', 'a', '}'] = some ms :=
  C9_spread_nonnull.1 ['{', '.', '.', '.', 'a', '}'] (by decide)

/-- With `"always"` configured, every finding a per-node handler emits
carries the "always" message. -/
theorem ownEmits_always_message {opts : Options}
    (hA : hasOption opts OPTION_ALWAYS = true)
    (k : NodeKind) (st : Nat) (tx : List Char) {fs : List Finding}
    (h : ownEmits opts k st tx = some fs) :
    ∀ f ∈ fs, f.message = ALWAYS_FAILURE_STRING := by
  have hspread : ∀ {fs' : List Finding}, handleJsxSpreadNode opts st tx = some fs' →
      ∀ f ∈ fs', f.message = ALWAYS_FAILURE_STRING := by
    intro fs' h' f hf
    simp only [handleJsxSpreadNode] at h'
    split at h'
    next => exact absurd h' (by simp)
    next ms hms =>
      injection h' with h'
      subst h'
      obtain ⟨m, hmms, hfm⟩ := List.mem_flatMap.mp hf
      by_cases hval : isValidExpression opts m = true
      · rw [hval] at hfm
        exact absurd hfm (by simp)
      · have hvalf : isValidExpression opts m = false := by simpa using hval
        rw [hvalf, hA] at hfm
        simp at hfm
        subst hfm
        rfl
  cases k with
  | jsxExpression =>
    have hfs : fs = visitJsxExpressionEmits opts st tx :=
      (Option.some.inj h).symm
    subst hfs
    intro f hf
    unfold visitJsxExpressionEmits at hf
    rw [hA] at hf
    split at hf
    · simp at hf
      subst hf
      rfl
    · exact absurd hf (by simp)
  | jsxElement =>
    intro f hf
    replace h : visitJsxElementEmits opts st tx = some fs := h
    unfold visitJsxElementEmits at h
    split at h
    · exact hspread h f hf
    · have hfs : fs = [] := (Option.some.inj h).symm
      subst hfs
      exact absurd hf (by simp)
  | jsxSelfClosingElement =>
    intro f hf
    replace h : visitJsxSelfClosingElementEmits opts st tx = some fs := h
    unfold visitJsxSelfClosingElementEmits at h
    split at h
    · exact hspread h f hf
    · have hfs : fs = [] := (Option.some.inj h).symm
      subst hfs
      exact absurd hf (by simp)
  | jsxAttribute =>
    have hfs : fs = [] := (Option.some.inj h).symm
    subst hfs
    intro f hf
    exact absurd hf (by simp)
  | other =>
    have hfs : fs = [] := (Option.some.inj h).symm
    subst hfs
    intro f hf
    exact absurd hf (by simp)

/-- With `"always"` configured, every finding of the whole walk carries
the "always" message. -/
theorem walkList_always_message {opts : Options}
    (hA : hasOption opts OPTION_ALWAYS = true) :
    ∀ (l : List JsxNode) (fs : List Finding), walkList opts l = some fs →
      ∀ f ∈ fs, f.message = ALWAYS_FAILURE_STRING := by
  intro l
  induction l using walkList.induct opts with
  | case1 =>
    intro fs h f hf
    simp only [walkList] at h
    have hfs : fs = [] := (Option.some.inj h).symm
    subst hfs
    exact absurd hf (by simp)
  | case2 k st tx cs rest ihc ihr =>
    intro fs h f hf
    simp only [walkList, bind, Option.bind_eq_some] at h
    obtain ⟨f₁, h₁, f₂, h₂, f₃, h₃, heq⟩ := h
    have hfs : fs = f₁ ++ f₂ ++ f₃ := (Option.some.inj heq).symm
    subst hfs
    simp only [List.mem_append] at hf
    rcases hf with (hf | hf) | hf
    · exact ownEmits_always_message hA k st tx h₁ f hf
    · exact ihc f₂ h₂ f hf
    · exact ihr f₃ h₃ f hf

/-- C10: a configuration containing both `"always"` and `"never"`
behaves exactly as `["always"]` alone on every tree, and all its
findings carry the "always" message. -/
theorem C10_both_options_always :
    ∀ (opts : Options) (tree : JsxNode),
      hasOption opts OPTION_ALWAYS = true → hasOption opts OPTION_NEVER = true →
      runChecker tree opts = runChecker tree [OPTION_ALWAYS] ∧
      ∀ fs, runChecker tree opts = some fs →
        ∀ f ∈ fs, f.message = ALWAYS_FAILURE_STRING := by
  intro opts tree hA _hN
  have hA' : hasOption [OPTION_ALWAYS] OPTION_ALWAYS = true := by decide
  constructor
  · exact walkList_congr (fun k st tx => ownEmits_always_dominates hA hA' k st tx) [tree]
  · intro fs h f hf
    exact walkList_always_message hA [tree] fs h f hf

/-- C10 witness: a concrete both-options run equals the always-only
run. -/
theorem C10_both_options_always_witness :
    runChecker (JsxNode.mk NodeKind.jsxExpression 0 ['{', 'x', '}'] [])
        [OPTION_ALWAYS, OPTION_NEVER]
      = runChecker (JsxNode.mk NodeKind.jsxExpression 0 ['{', 'x', '}'] [])
        [OPTION_ALWAYS] :=
  (C10_both_options_always [OPTION_ALWAYS, OPTION_NEVER]
    (JsxNode.mk NodeKind.jsxExpression 0 ['{', 'x', '}'] [])
    (by decide) (by decide)).1

end JsxCurlySpacing
